import Mathlib

/-!
# Verification of `fletcher/string_array.py`

Shallow embedding of the string-array view (`NumbaStringArray`), the
append-only builder (`NumbaStringArrayBuilder`) and the `contains` dispatch of
`TextAccessor`, together with proofs of the specified properties.

Buffers are lists of `Nat`.  The numpy buffers hold `uint8` (validity and
data) and `uint32` (offsets) values; byte stores go through `% 256` as the
`uint8` store does.  Positions, capacities and offsets are kept as `Nat`:
all properties below concern the regime far below `2^32`, where the `uint32`
arithmetic of the source is exact.
-/

namespace Fletcher

/-- View over arrow string-array buffers (`NumbaStringArray.__init__`):
validity bitmap `missing` (uint8 bytes), `offsets` (uint32), `data`
(uint8 bytes) and the logical slice `offset`. -/
structure NumbaStringArray where
  missing : List Nat
  offsets : List Nat
  data : List Nat
  offset : Nat
  deriving DecidableEq

namespace NumbaStringArray

/-- `size`: `len(self.offsets) - 1 - self.offset`. -/
def size (v : NumbaStringArray) : Nat :=
  v.offsets.length - 1 - v.offset

/-- `isnull(str_idx)`: bit `(str_idx + offset)` of the validity bitmap is 0. -/
def isnull (v : NumbaStringArray) (str_idx : Nat) : Bool :=
  let i := str_idx + v.offset
  (v.missing.getD (i / 8) 0 &&& (1 <<< (i % 8))) == 0

/-- `byte_length(str_idx)`: `offsets[str_idx + 1] - offsets[str_idx]` after
adding the logical offset. -/
def byte_length (v : NumbaStringArray) (str_idx : Nat) : Nat :=
  let i := str_idx + v.offset
  v.offsets.getD (i + 1) 0 - v.offsets.getD i 0

/-- `get_byte(str_idx, byte_idx)`: `data[offsets[str_idx] + byte_idx]`. -/
def get_byte (v : NumbaStringArray) (str_idx byte_idx : Nat) : Nat :=
  let i := str_idx + v.offset
  v.data.getD (v.offsets.getD i 0 + byte_idx) 0

/-- `get(str_idx, byte_idx)`: decode one ASCII codepoint; raises
(`none`) on a byte above 127, else returns the byte and the step 1. -/
def get (v : NumbaStringArray) (str_idx byte_idx : Nat) : Option (Nat × Nat) :=
  if 127 < v.get_byte str_idx byte_idx then none
  else some (v.get_byte str_idx byte_idx, 1)

/-- The loop of `length`: `current` walks the bytes of the element,
`result` counts decoded codepoints. -/
def lengthAux (v : NumbaStringArray) (s bl current result : Nat) : Option Nat :=
  if _h : current < bl then
    match hg : v.get s current with
    | none => none
    | some ci => lengthAux v s bl (current + ci.2) (result + 1)
  else some result
  termination_by bl - current
  decreasing_by
    have h1 : ci.2 = 1 := by
      unfold NumbaStringArray.get at hg
      split at hg
      · cases hg
      · cases hg
        rfl
    omega

/-- `length(str_idx)`: number of codepoints, walking bytes through `get`. -/
def length (v : NumbaStringArray) (str_idx : Nat) : Option Nat :=
  lengthAux v str_idx (v.byte_length str_idx) 0 0

/-- The loop of `decode`: accumulates the codepoints written to the output
buffer (the returned `buffer[:j]` prefix). -/
def decodeAux (v : NumbaStringArray) (s bl i : Nat) (acc : List Nat) :
    Option (List Nat) :=
  if _h : i < bl then
    match hg : v.get s i with
    | none => none
    | some ci => decodeAux v s bl (i + ci.2) (acc ++ [ci.1])
  else some acc
  termination_by bl - i
  decreasing_by
    have h1 : ci.2 = 1 := by
      unfold NumbaStringArray.get at hg
      split at hg
      · cases hg
      · cases hg
        rfl
    omega

/-- `decode(str_idx)`: the codepoints of element `str_idx`. -/
def decode (v : NumbaStringArray) (str_idx : Nat) : Option (List Nat) :=
  decodeAux v str_idx (v.byte_length str_idx) 0 []

end NumbaStringArray

/-- `_missing_capactiy(capacity)` (sic): `int(math.ceil(capacity / 8))`. -/
def missing_capactiy (capacity : Nat) : Nat :=
  (capacity + 7) / 8

/-- `int(math.ceil(1.2 * c))`.  For every `c < 2^32` (the uint32 capacities)
the float64 computation of the source equals `⌈6c/5⌉ = (6c + 4) / 5`. -/
def grow12 (c : Nat) : Nat :=
  (6 * c + 4) / 5

/-- Growable builder state (`NumbaStringArrayBuilder`). -/
structure NumbaStringArrayBuilder where
  missing : List Nat
  offsets : List Nat
  data : List Nat
  string_position : Nat
  byte_position : Nat
  string_capacity : Nat
  byte_capacity : Nat
  deriving DecidableEq

namespace NumbaStringArrayBuilder

/-- `__init__(string_capacity, byte_capacity)`: `missing` is `np.ones`
(each byte the value 1), `offsets` and `data` are zeroed. -/
def init (string_capacity byte_capacity : Nat) : NumbaStringArrayBuilder where
  missing := List.replicate (missing_capactiy string_capacity) 1
  offsets := List.replicate (string_capacity + 1) 0
  data := List.replicate byte_capacity 0
  string_position := 0
  byte_position := 0
  string_capacity := string_capacity
  byte_capacity := byte_capacity

/-- `increase_string_capacity`: asserts the new capacity is strictly larger
(`none` models the assertion failure), then copies `missing` and `offsets`
into zero-initialised larger buffers. -/
def increase_string_capacity (st : NumbaStringArrayBuilder)
    (string_capacity : Nat) : Option NumbaStringArrayBuilder :=
  if st.string_capacity < string_capacity then
    some { st with
      missing := st.missing.take (missing_capactiy st.string_capacity) ++
        List.replicate
          (missing_capactiy string_capacity -
            missing_capactiy st.string_capacity) 0
      offsets := st.offsets.take (st.string_capacity + 1) ++
        List.replicate
          ((string_capacity + 1) - (st.string_capacity + 1)) 0
      string_capacity := string_capacity }
  else none

/-- `increase_byte_capacity`: asserts the new capacity is strictly larger,
then copies `data` into a zero-initialised larger buffer. -/
def increase_byte_capacity (st : NumbaStringArrayBuilder)
    (byte_capacity : Nat) : Option NumbaStringArrayBuilder :=
  if st.byte_capacity < byte_capacity then
    some { st with
      data := st.data.take st.byte_capacity ++
        List.replicate (byte_capacity - st.byte_capacity) 0
      byte_capacity := byte_capacity }
  else none

/-- `put_byte(b)`: grow `data` when full, then store `b` (a uint8 store,
hence `% 256`) and advance `byte_position`. -/
def put_byte (st : NumbaStringArrayBuilder) (b : Nat) :
    Option NumbaStringArrayBuilder :=
  match (if st.byte_capacity ≤ st.byte_position then
      st.increase_byte_capacity (grow12 st.byte_capacity)
    else some st) with
  | none => none
  | some st1 => some { st1 with
      data := st1.data.set st1.byte_position (b % 256)
      byte_position := st1.byte_position + 1 }

/-- `finish_string()`: grow when full, seal the pending element with
`offsets[string_position + 1] = byte_position`, set its validity bit,
advance `string_position`. -/
def finish_string (st : NumbaStringArrayBuilder) :
    Option NumbaStringArrayBuilder :=
  match (if st.string_capacity ≤ st.string_position then
      st.increase_string_capacity (grow12 st.string_capacity)
    else some st) with
  | none => none
  | some st1 =>
    let byte_idx := st1.string_position / 8
    some { st1 with
      offsets := st1.offsets.set (st1.string_position + 1) st1.byte_position
      missing := st1.missing.set byte_idx
        (st1.missing.getD byte_idx 0 ||| (1 <<< (st1.string_position % 8)))
      string_position := st1.string_position + 1 }

/-- `finish_null()`: like `finish_string` but clears the validity bit;
the uint8 `&= ~(1 << k)` is `&&& (255 ^^^ (1 <<< k))`. -/
def finish_null (st : NumbaStringArrayBuilder) :
    Option NumbaStringArrayBuilder :=
  match (if st.string_capacity ≤ st.string_position then
      st.increase_string_capacity (grow12 st.string_capacity)
    else some st) with
  | none => none
  | some st1 =>
    let byte_idx := st1.string_position / 8
    some { st1 with
      offsets := st1.offsets.set (st1.string_position + 1) st1.byte_position
      missing := st1.missing.set byte_idx
        (st1.missing.getD byte_idx 0 &&&
          (255 ^^^ (1 <<< (st1.string_position % 8))))
      string_position := st1.string_position + 1 }

/-- `finish()`: trim the three buffers to the written extents. -/
def finish (st : NumbaStringArrayBuilder) : NumbaStringArrayBuilder :=
  { st with
    missing := st.missing.take (missing_capactiy st.string_position)
    offsets := st.offsets.take (st.string_position + 1)
    data := st.data.take st.byte_position }

/-- The `NumbaStringArray` view over a builder's buffers at logical
offset `offset`. -/
def toView (st : NumbaStringArrayBuilder) (offset : Nat) : NumbaStringArray :=
  { missing := st.missing, offsets := st.offsets, data := st.data
    offset := offset }

end NumbaStringArrayBuilder

/-- Bit `i` of a bit-packed validity buffer. -/
def bitGet (m : List Nat) (i : Nat) : Bool :=
  (m.getD (i / 8) 0).testBit (i % 8)

/-! ## Ghost description of the builder contents -/

/-- The data bytes one element contributes (`put_byte` performs uint8
stores): a null element contributes none. -/
def elemBytes : Option (List Nat) → List Nat
  | some bs => bs.map (· % 256)
  | none => []

/-- All data bytes of a sequence of elements, concatenated in order. -/
def flatBytes : List (Option (List Nat)) → List Nat
  | [] => []
  | e :: es => elemBytes e ++ flatBytes es

/-! ## The build procedure of claim C1

One `put_byte` per byte of each element, `finish_string` for a string,
`finish_null` for a null, and finally `finish`. -/

namespace NumbaStringArrayBuilder

def putBytes (st : NumbaStringArrayBuilder) :
    List Nat → Option NumbaStringArrayBuilder
  | [] => some st
  | b :: bs =>
    match st.put_byte b with
    | none => none
    | some st1 => st1.putBytes bs

def putElem (st : NumbaStringArrayBuilder) :
    Option (List Nat) → Option NumbaStringArrayBuilder
  | some bs =>
    match st.putBytes bs with
    | none => none
    | some st1 => st1.finish_string
  | none => st.finish_null

def buildAll (st : NumbaStringArrayBuilder) :
    List (Option (List Nat)) → Option NumbaStringArrayBuilder
  | [] => some st
  | e :: es =>
    match st.putElem e with
    | none => none
    | some st1 => st1.buildAll es

end NumbaStringArrayBuilder

namespace NumbaStringArrayBuilder

/-- Ghost invariant: builder `st` holds the already-finished elements
`elems` followed by the bytes `pending` of the element under
construction. -/
structure BuildInv (st : NumbaStringArrayBuilder)
    (elems : List (Option (List Nat))) (pending : List Nat) : Prop where
  sp : st.string_position = elems.length
  bp : st.byte_position = (flatBytes elems).length + pending.length
  scap : 1 ≤ st.string_capacity
  bcap : 1 ≤ st.byte_capacity
  sple : st.string_position ≤ st.string_capacity
  bple : st.byte_position ≤ st.byte_capacity
  mlen : st.missing.length = missing_capactiy st.string_capacity
  olen : st.offsets.length = st.string_capacity + 1
  dlen : st.data.length = st.byte_capacity
  hoff : ∀ i, i ≤ elems.length →
    st.offsets.getD i 0 = (flatBytes (elems.take i)).length
  hdata : ∀ j, j < st.byte_position →
    st.data.getD j 0 = (flatBytes elems ++ pending.map (· % 256)).getD j 0
  hbits : ∀ i, i < elems.length →
    bitGet st.missing i = (elems.getD i none).isSome

/-- The builder capacity invariant of the spec: positions within
capacities, buffers sized to their capacities, and
`offsets[0..string_position]` non-decreasing with every entry at most
`byte_position`. -/
def CapInv (st : NumbaStringArrayBuilder) : Prop :=
  st.byte_position ≤ st.byte_capacity ∧
  st.string_position ≤ st.string_capacity ∧
  st.missing.length = missing_capactiy st.string_capacity ∧
  st.offsets.length = st.string_capacity + 1 ∧
  st.data.length = st.byte_capacity ∧
  (∀ j, j ≤ st.string_position → ∀ i, i ≤ j →
    st.offsets.getD i 0 ≤ st.offsets.getD j 0) ∧
  (∀ i, i ≤ st.string_position → st.offsets.getD i 0 ≤ st.byte_position)

end NumbaStringArrayBuilder

/-! ## The `TextAccessor.contains` dispatch

An input series is a list of elements, each a byte string (`some`) or null
(`none`); a pattern is a byte string.  `contains` either computes its result
directly or hands the call to one of the matching engines, which we record
as a tag. -/

/-- Where a `contains` call ends up: a directly computed boolean series
(the all-true path), the byte-level exact matcher
(`pc.binary_contains_exact` / `_text_contains_case_sensitive`), the
byte-level ASCII case-folding matcher (the path the spec describes as
deferred), or delegation to the external text engine through the pandas
str accessor (`_call_str_accessor`). -/
inductive ContainsResult
  | values (vals : List (Option Bool))
  | byteExact
  | asciiCaseFold
  | strAccessor
  deriving DecidableEq

/-- Modelled from the spec: `all_true_like` is imported from
`fletcher.algorithms.bool`, whose source is not part of this repository
slice; per the spec, the empty needle is vacuously true for every non-null
element and null input yields null output. -/
def all_true_like (data : List (Option (List Nat))) : List (Option Bool) :=
  data.map (Option.map fun _ => true)

/-- `TextAccessor.contains(pat, case, regex)`: for `regex=False` an empty
pattern returns the all-true array; a non-empty pattern with `case=True`
uses the byte-level exact matcher; with `case=False` the body is a bare
`pass` and control falls through to `_call_str_accessor`, as it does for
`regex=True`. -/
def contains (data : List (Option (List Nat))) (pat : List Nat)
    (case regex : Bool) : ContainsResult :=
  if regex = false then
    if pat.length = 0 then ContainsResult.values (all_true_like data)
    else if case = true then ContainsResult.byteExact
    else ContainsResult.strAccessor
  else ContainsResult.strAccessor

/-! ## List helper lemmas -/

theorem getD_eq_default {α : Type _} {l : List α} {n : Nat}
    (h : l.length ≤ n) (d : α) : l.getD n d = d := by
  rw [List.getD_eq_getElem?_getD, List.getElem?_eq_none h]
  rfl

theorem getD_append_lt {α : Type _} {l1 l2 : List α} {n : Nat}
    (h : n < l1.length) (d : α) : (l1 ++ l2).getD n d = l1.getD n d := by
  rw [List.getD_eq_getElem?_getD, List.getD_eq_getElem?_getD,
    List.getElem?_append, if_pos h]

theorem getD_append_add {α : Type _} {l1 l2 : List α} (j : Nat) (d : α) :
    (l1 ++ l2).getD (l1.length + j) d = l2.getD j d := by
  rw [List.getD_eq_getElem?_getD, List.getD_eq_getElem?_getD,
    List.getElem?_append_right (Nat.le_add_right _ _),
    Nat.add_sub_cancel_left]

theorem getD_take_lt {α : Type _} {l : List α} {n m : Nat} (h : m < n)
    (d : α) : (l.take n).getD m d = l.getD m d := by
  rw [List.getD_eq_getElem?_getD, List.getD_eq_getElem?_getD,
    List.getElem?_take, if_pos h]

theorem getD_append_length {α : Type _} (l1 l2 : List α) (d : α) :
    (l1 ++ l2).getD l1.length d = l2.getD 0 d := by
  simpa using @getD_append_add α l1 l2 0 d

theorem getD_replicate_zero (n m : Nat) :
    (List.replicate n (0 : Nat)).getD m 0 = 0 := by
  rw [List.getD_eq_getElem?_getD, List.getElem?_replicate]
  split <;> rfl

theorem getD_set_cases {α : Type _} (l : List α) (i j : Nat) (a d : α) :
    (l.set i a).getD j d =
      if i = j ∧ i < l.length then a else l.getD j d := by
  rw [List.getD_eq_getElem?_getD, List.getElem?_set]
  by_cases hij : i = j
  · subst hij
    by_cases hl : i < l.length
    · simp [hl]
    · simp only [hl, and_false, if_false, if_true, if_neg]
      rw [getD_eq_default (Nat.le_of_not_lt hl)]
      simp [hl]
  · simp [hij, List.getD_eq_getElem?_getD]

theorem getD_set_ne {α : Type _} (l : List α) {i j : Nat} (h : i ≠ j)
    (a d : α) : (l.set i a).getD j d = l.getD j d := by
  rw [getD_set_cases]
  simp [h]

theorem getD_set_self {α : Type _} (l : List α) {i : Nat}
    (h : i < l.length) (a d : α) : (l.set i a).getD i d = a := by
  rw [getD_set_cases]
  simp [h]

/-- The padded copy performed by the capacity-growth routines preserves
every entry of the original buffer. -/
theorem getD_grow {l : List Nat} {c : Nat} (hl : l.length = c) {m : Nat}
    (h : m < c) (k : Nat) :
    (l.take c ++ List.replicate k 0).getD m 0 = l.getD m 0 := by
  rw [← hl, List.take_length]
  exact getD_append_lt (hl ▸ h) 0

theorem length_grow {l : List Nat} {c n : Nat} (hl : l.length = c)
    (h : c ≤ n) :
    (l.take c ++ List.replicate (n - c) 0).length = n := by
  rw [List.length_append, List.length_take, List.length_replicate, hl]
  omega

/-! ## Bit helper lemmas -/

theorem and_shift_eq_zero_iff (b r : Nat) :
    (b &&& (1 <<< r) = 0) ↔ b.testBit r = false := by
  rw [Nat.shiftLeft_eq, one_mul, Nat.and_two_pow]
  cases h : b.testBit r <;> simp [Nat.pow_eq_zero]

theorem shiftRight_and_one_eq_zero_iff (b r : Nat) :
    ((b >>> r) &&& 1 = 0) ↔ b.testBit r = false := by
  rw [Nat.and_one_is_mod, Nat.shiftRight_eq_div_pow, Nat.testBit_to_div_mod]
  have h2 : b / 2 ^ r % 2 < 2 := Nat.mod_lt _ (by norm_num)
  constructor
  · intro h
    simp [h]
  · intro h
    simp only [decide_eq_false_iff_not] at h
    omega

theorem testBit_or_shift_self (b k : Nat) :
    (b ||| (1 <<< k)).testBit k = true := by
  rw [Nat.shiftLeft_eq, one_mul, Nat.testBit_or, Nat.testBit_two_pow]
  simp

theorem testBit_or_shift_other (b k r : Nat) (h : k ≠ r) :
    (b ||| (1 <<< k)).testBit r = b.testBit r := by
  rw [Nat.shiftLeft_eq, one_mul, Nat.testBit_or, Nat.testBit_two_pow]
  simp [h]

theorem testBit_and_mask_self (b k : Nat) (hk : k < 8) :
    (b &&& (255 ^^^ (1 <<< k))).testBit k = false := by
  rw [Nat.shiftLeft_eq, one_mul, Nat.testBit_and, Nat.testBit_xor,
    show (255 : ℕ) = 2 ^ 8 - 1 by norm_num,
    Nat.testBit_two_pow_sub_one, Nat.testBit_two_pow]
  simp [hk]

theorem testBit_and_mask_other (b k r : Nat) (hr : r < 8) (h : k ≠ r) :
    (b &&& (255 ^^^ (1 <<< k))).testBit r = b.testBit r := by
  rw [Nat.shiftLeft_eq, one_mul, Nat.testBit_and, Nat.testBit_xor,
    show (255 : ℕ) = 2 ^ 8 - 1 by norm_num,
    Nat.testBit_two_pow_sub_one, Nat.testBit_two_pow]
  simp [hr, h]

/-! ## Claims C2, C6, C9, C10, C3, C4 -/

/-- C2: slicing commutes with element access — the view over the same
buffers with logical offset `k` answers `isnull`, `byte_length` and
`get_byte` at `i` exactly as the offset-0 view does at `k + i`. -/
theorem claim_C2_slicing_commutes (missing offsets data : List Nat)
    (k i j : Nat) :
    ((NumbaStringArray.mk missing offsets data k).isnull i =
      (NumbaStringArray.mk missing offsets data 0).isnull (k + i)) ∧
    ((NumbaStringArray.mk missing offsets data k).byte_length i =
      (NumbaStringArray.mk missing offsets data 0).byte_length (k + i)) ∧
    ((NumbaStringArray.mk missing offsets data k).get_byte i j =
      (NumbaStringArray.mk missing offsets data 0).get_byte (k + i) j) := by
  simp only [NumbaStringArray.isnull, NumbaStringArray.byte_length,
    NumbaStringArray.get_byte, Nat.add_zero]
  rw [Nat.add_comm i k]
  exact ⟨rfl, rfl, rfl⟩

/-- C6: the O(1) accessors compute the spec formulas —
`size = len(offsets) - 1 - offset`,
`byte_length(i) = offsets[offset+i+1] - offsets[offset+i]`, and
`isnull(i)` holds exactly when bit `(offset+i) % 8` of byte
`(offset+i) / 8` of the validity buffer is 0. -/
theorem claim_C6_accessor_formulas (v : NumbaStringArray) (i : Nat) :
    v.size = v.offsets.length - 1 - v.offset ∧
    v.byte_length i =
      v.offsets.getD (v.offset + i + 1) 0 - v.offsets.getD (v.offset + i) 0 ∧
    (v.isnull i = true ↔
      (v.missing.getD ((v.offset + i) / 8) 0 >>> ((v.offset + i) % 8)) &&& 1
        = 0) := by
  refine ⟨rfl, ?_, ?_⟩
  · simp only [NumbaStringArray.byte_length]
    rw [Nat.add_comm i v.offset]
  · simp only [NumbaStringArray.isnull]
    rw [Nat.add_comm i v.offset, beq_iff_eq, and_shift_eq_zero_iff,
      shiftRight_and_one_eq_zero_iff]

/-- C9: growing to a smaller-or-equal capacity fails the assertion
(`none`); growing to a strictly larger capacity succeeds. -/
theorem claim_C9_growth_assertion (st : NumbaStringArrayBuilder) (n : Nat) :
    (n ≤ st.string_capacity → st.increase_string_capacity n = none) ∧
    (st.string_capacity < n → (st.increase_string_capacity n).isSome) ∧
    (n ≤ st.byte_capacity → st.increase_byte_capacity n = none) ∧
    (st.byte_capacity < n → (st.increase_byte_capacity n).isSome) := by
  refine ⟨fun h => ?_, fun h => ?_, fun h => ?_, fun h => ?_⟩ <;>
    simp [NumbaStringArrayBuilder.increase_string_capacity,
      NumbaStringArrayBuilder.increase_byte_capacity] <;>
    omega

theorem claim_C9_witness :
    ((NumbaStringArrayBuilder.init 2 3).increase_string_capacity 2 = none) ∧
    ((NumbaStringArrayBuilder.init 2 3).increase_byte_capacity 4).isSome :=
  ⟨(claim_C9_growth_assertion (NumbaStringArrayBuilder.init 2 3) 2).1
      (by decide),
    (claim_C9_growth_assertion (NumbaStringArrayBuilder.init 2 3) 4).2.2.2
      (by decide)⟩

/-- C10: with `byte_capacity = 0` the first `put_byte` fails the growth
assertion, because `ceil(1.2 * 0) = 0` is not strictly larger; likewise
`finish_string`/`finish_null` with `string_capacity = 0`; and for every
capacity `c ≥ 1` the grown capacity `ceil(1.2 * c)` is strictly larger,
so growth succeeds. -/
theorem claim_C10_zero_capacity (sc bc b : Nat) :
    ((NumbaStringArrayBuilder.init sc 0).put_byte b = none) ∧
    ((NumbaStringArrayBuilder.init 0 bc).finish_string = none) ∧
    ((NumbaStringArrayBuilder.init 0 bc).finish_null = none) ∧
    (∀ c, 1 ≤ c → c < grow12 c) ∧
    (∀ st : NumbaStringArrayBuilder, 1 ≤ st.byte_capacity →
      (st.increase_byte_capacity (grow12 st.byte_capacity)).isSome) ∧
    (∀ st : NumbaStringArrayBuilder, 1 ≤ st.string_capacity →
      (st.increase_string_capacity (grow12 st.string_capacity)).isSome) := by
  have hgrow : ∀ c, 1 ≤ c → c < grow12 c := by
    intro c hc
    simp only [grow12]
    omega
  refine ⟨?_, ?_, ?_, hgrow, fun st h => ?_, fun st h => ?_⟩
  · simp [NumbaStringArrayBuilder.put_byte, NumbaStringArrayBuilder.init,
      NumbaStringArrayBuilder.increase_byte_capacity, grow12]
  · simp [NumbaStringArrayBuilder.finish_string,
      NumbaStringArrayBuilder.init,
      NumbaStringArrayBuilder.increase_string_capacity, grow12]
  · simp [NumbaStringArrayBuilder.finish_null,
      NumbaStringArrayBuilder.init,
      NumbaStringArrayBuilder.increase_string_capacity, grow12]
  · simp [NumbaStringArrayBuilder.increase_byte_capacity, hgrow _ h]
  · simp [NumbaStringArrayBuilder.increase_string_capacity, hgrow _ h]

theorem claim_C10_witness :
    ((NumbaStringArrayBuilder.init 5 0).put_byte 7 = none) ∧
    (1 ≤ 1 ∧ 1 < grow12 1) :=
  ⟨(claim_C10_zero_capacity 5 0 7).1,
    le_refl 1, (claim_C10_zero_capacity 5 0 7).2.2.2.1 1 (le_refl 1)⟩

/-- C3: with `regex=False` and an empty pattern, `contains` returns the
all-true-like array: true for every non-null element, null for every null;
in particular `["a","b"]` gives `[true, true]`. -/
theorem claim_C3_empty_pattern (data : List (Option (List Nat)))
    (case : Bool) :
    contains data [] case false = ContainsResult.values (all_true_like data) ∧
    (∀ i, i < data.length →
      (all_true_like data).getD i none =
        if (data.getD i none).isSome then some true else none) ∧
    contains [some [97], some [98]] [] case false =
      ContainsResult.values [some true, some true] := by
  refine ⟨rfl, fun i hi => ?_, rfl⟩
  simp only [all_true_like, List.getD_eq_getElem?_getD, List.getElem?_map]
  rcases h : data[i]? with _ | e
  · rw [List.getElem?_eq_none_iff] at h
    omega
  · cases e <;> rfl

theorem claim_C3_witness :
    1 < 2 ∧
    (all_true_like [some [97], none]).getD 1 none =
      (if (([some [97], none] :
          List (Option (List Nat))).getD 1 none).isSome
        then some true else none) :=
  ⟨by norm_num,
    (claim_C3_empty_pattern [some [97], none] true).2.1 1 (by norm_num)⟩

/-- C4 counterexample: with `regex=False`, `case=False` and all-ASCII
pattern and data (pattern `"a"`, data `["b"]`), the call is handed to the
external str accessor, not to a byte-level ASCII case-folding matcher. -/
theorem claim_C4_counterexample :
    contains [some [98]] [97] false false = ContainsResult.strAccessor ∧
    ContainsResult.strAccessor ≠ ContainsResult.asciiCaseFold :=
  ⟨rfl, by decide⟩

/-- C4 (amended): with `regex=False` and `case=False` and a non-empty
pattern, `contains` always delegates to the external text engine — the
byte-level ASCII lookup-table path is not implemented, whether or not the
pattern or data are ASCII. -/
theorem claim_C4_case_insensitive_delegates
    (data : List (Option (List Nat))) (pat : List Nat) (h : pat ≠ []) :
    contains data pat false false = ContainsResult.strAccessor := by
  simp [contains, List.length_eq_zero, h]

theorem claim_C4_witness :
    ([97] : List Nat) ≠ [] ∧
    contains [some [98]] [97] false false = ContainsResult.strAccessor :=
  ⟨by decide, claim_C4_case_insensitive_delegates [some [98]] [97]
    (by decide)⟩

/-! ## The ASCII decoder loops (claim C5) -/

namespace NumbaStringArray

theorem get_inc {v : NumbaStringArray} {s b : Nat} {ci : Nat × Nat}
    (h : v.get s b = some ci) : ci.2 = 1 := by
  unfold get at h
  split at h
  · exact absurd h (by simp)
  · cases h
    rfl

theorem get_eq_none_iff (v : NumbaStringArray) (s b : Nat) :
    v.get s b = none ↔ 127 < v.get_byte s b := by
  unfold get
  split
  · simpa
  · simpa using by omega

theorem get_eq_some_of_le {v : NumbaStringArray} {s b : Nat}
    (h : v.get_byte s b ≤ 127) : v.get s b = some (v.get_byte s b, 1) := by
  unfold get
  rw [if_neg (by omega)]

theorem lengthAux_stop {v : NumbaStringArray} {s bl current result : Nat}
    (h : ¬ current < bl) : lengthAux v s bl current result = some result := by
  rw [lengthAux, dif_neg h]

theorem lengthAux_fail {v : NumbaStringArray} {s bl current result : Nat}
    (h1 : current < bl) (h2 : v.get s current = none) :
    lengthAux v s bl current result = none := by
  rw [lengthAux, dif_pos h1]
  split
  · rfl
  · simp_all

theorem lengthAux_step {v : NumbaStringArray} {s bl current result : Nat}
    {ci : Nat × Nat} (h1 : current < bl) (h2 : v.get s current = some ci) :
    lengthAux v s bl current result =
      lengthAux v s bl (current + ci.2) (result + 1) := by
  rw [lengthAux, dif_pos h1]
  split
  · simp_all
  · simp_all

theorem lengthAux_all_le (v : NumbaStringArray) (s bl : Nat) :
    ∀ current result,
      (∀ j, current ≤ j → j < bl → v.get_byte s j ≤ 127) →
      lengthAux v s bl current result = some (result + (bl - current)) := by
  intro current result
  induction current, result using lengthAux.induct v s bl with
  | case1 current result h1 h2 =>
    intro hall
    rw [get_eq_none_iff] at h2
    exact absurd h2 (by simpa using hall current (le_refl _) h1)
  | case2 current result h1 ci h2 ih =>
    intro hall
    have hinc : ci.2 = 1 := get_inc h2
    rw [lengthAux_step h1 h2, ih fun j hj1 hj2 => hall j (by omega) hj2]
    congr 1
    omega
  | case3 current result h1 =>
    intro _
    rw [lengthAux_stop h1]
    congr 1
    omega

theorem lengthAux_bad (v : NumbaStringArray) (s bl : Nat) :
    ∀ current result,
      (∃ j, current ≤ j ∧ j < bl ∧ 127 < v.get_byte s j) →
      lengthAux v s bl current result = none := by
  intro current result
  induction current, result using lengthAux.induct v s bl with
  | case1 current result h1 h2 =>
    intro _
    exact lengthAux_fail h1 h2
  | case2 current result h1 ci h2 ih =>
    rintro ⟨j, hj1, hj2, hj3⟩
    have hok : ¬ 127 < v.get_byte s current := by
      intro hlt
      rw [← get_eq_none_iff] at hlt
      simp_all
    have hinc : ci.2 = 1 := get_inc h2
    have hne : j ≠ current := by
      intro he
      rw [he] at hj3
      exact hok hj3
    rw [lengthAux_step h1 h2]
    exact ih ⟨j, by omega, hj2, hj3⟩
  | case3 current result h1 =>
    rintro ⟨j, hj1, hj2, _⟩
    omega

theorem decodeAux_stop {v : NumbaStringArray} {s bl i : Nat}
    {acc : List Nat} (h : ¬ i < bl) : decodeAux v s bl i acc = some acc := by
  rw [decodeAux, dif_neg h]

theorem decodeAux_fail {v : NumbaStringArray} {s bl i : Nat}
    {acc : List Nat} (h1 : i < bl) (h2 : v.get s i = none) :
    decodeAux v s bl i acc = none := by
  rw [decodeAux, dif_pos h1]
  split
  · rfl
  · simp_all

theorem decodeAux_step {v : NumbaStringArray} {s bl i : Nat}
    {acc : List Nat} {ci : Nat × Nat} (h1 : i < bl)
    (h2 : v.get s i = some ci) :
    decodeAux v s bl i acc = decodeAux v s bl (i + ci.2) (acc ++ [ci.1]) := by
  rw [decodeAux, dif_pos h1]
  split
  · simp_all
  · simp_all

theorem decodeAux_all_le (v : NumbaStringArray) (s bl : Nat) :
    ∀ i acc,
      (∀ j, i ≤ j → j < bl → v.get_byte s j ≤ 127) →
      decodeAux v s bl i acc =
        some (acc ++ (List.range' i (bl - i)).map (v.get_byte s)) := by
  intro i acc
  induction i, acc using decodeAux.induct v s bl with
  | case1 i acc h1 h2 =>
    intro hall
    rw [get_eq_none_iff] at h2
    exact absurd h2 (by simpa using hall i (le_refl _) h1)
  | case2 i acc h1 ci h2 ih =>
    intro hall
    have hsome := get_eq_some_of_le (hall i (le_refl _) h1)
    rw [h2] at hsome
    have hci : ci = (v.get_byte s i, 1) := by
      cases hsome
      rfl
    have hinc : ci.2 = 1 := get_inc h2
    rw [decodeAux_step h1 h2, ih fun j hj1 hj2 => hall j (by omega) hj2]
    have hbl : bl - i = (bl - (i + ci.2)) + 1 := by omega
    rw [hbl, List.range'_succ, hci]
    simp
  | case3 i acc h1 =>
    intro _
    rw [decodeAux_stop h1]
    have hbl : bl - i = 0 := by omega
    simp [hbl]

theorem decodeAux_bad (v : NumbaStringArray) (s bl : Nat) :
    ∀ i acc,
      (∃ j, i ≤ j ∧ j < bl ∧ 127 < v.get_byte s j) →
      decodeAux v s bl i acc = none := by
  intro i acc
  induction i, acc using decodeAux.induct v s bl with
  | case1 i acc h1 h2 =>
    intro _
    exact decodeAux_fail h1 h2
  | case2 i acc h1 ci h2 ih =>
    rintro ⟨j, hj1, hj2, hj3⟩
    have hok : ¬ 127 < v.get_byte s i := by
      intro hlt
      rw [← get_eq_none_iff] at hlt
      simp_all
    have hinc : ci.2 = 1 := get_inc h2
    have hne : j ≠ i := by
      intro he
      rw [he] at hj3
      exact hok hj3
    rw [decodeAux_step h1 h2]
    exact ih ⟨j, by omega, hj2, hj3⟩
  | case3 i acc h1 =>
    rintro ⟨j, hj1, hj2, _⟩
    omega

end NumbaStringArray

/-- C5: `length(i)` and `decode(i)` fail exactly when some byte of element
`i` exceeds 127; when every byte is at most 127 they succeed, `decode(i)`
returns one codepoint per byte (the byte values in order) and `length(i)`
equals `byte_length(i)`. -/
theorem claim_C5_ascii_decode (v : NumbaStringArray) (i : Nat) :
    (v.length i = none ↔
      ∃ j, j < v.byte_length i ∧ 127 < v.get_byte i j) ∧
    (v.decode i = none ↔
      ∃ j, j < v.byte_length i ∧ 127 < v.get_byte i j) ∧
    ((∀ j, j < v.byte_length i → v.get_byte i j ≤ 127) →
      v.length i = some (v.byte_length i) ∧
      v.decode i = some ((List.range (v.byte_length i)).map (v.get_byte i))) := by
  refine ⟨⟨fun h => ?_, fun ⟨j, hj1, hj2⟩ => ?_⟩,
    ⟨fun h => ?_, fun ⟨j, hj1, hj2⟩ => ?_⟩, fun hall => ⟨?_, ?_⟩⟩
  · by_contra hno
    push_neg at hno
    rw [NumbaStringArray.length,
      NumbaStringArray.lengthAux_all_le v i _ 0 0
        (fun j _ hj => hno j hj)] at h
    exact absurd h (by simp)
  · exact NumbaStringArray.lengthAux_bad v i _ 0 0 ⟨j, Nat.zero_le _, hj1, hj2⟩
  · by_contra hno
    push_neg at hno
    rw [NumbaStringArray.decode,
      NumbaStringArray.decodeAux_all_le v i _ 0 []
        (fun j _ hj => hno j hj)] at h
    exact absurd h (by simp)
  · exact NumbaStringArray.decodeAux_bad v i _ 0 [] ⟨j, Nat.zero_le _, hj1, hj2⟩
  · rw [NumbaStringArray.length,
      NumbaStringArray.lengthAux_all_le v i _ 0 0 (fun j _ hj => hall j hj)]
    simp
  · rw [NumbaStringArray.decode,
      NumbaStringArray.decodeAux_all_le v i _ 0 [] (fun j _ hj => hall j hj),
      List.range_eq_range']
    simp

/-! ## Validity-bitmap update lemmas -/

theorem bitGet_set_or_self {m : List Nat} {p : Nat} (hp : p / 8 < m.length) :
    bitGet (m.set (p / 8) (m.getD (p / 8) 0 ||| (1 <<< (p % 8)))) p
      = true := by
  rw [bitGet, getD_set_self _ hp, testBit_or_shift_self]

theorem bitGet_set_or_other (m : List Nat) {p i : Nat} (h : i ≠ p) :
    bitGet (m.set (p / 8) (m.getD (p / 8) 0 ||| (1 <<< (p % 8)))) i =
      bitGet m i := by
  by_cases hb : i / 8 = p / 8
  · have hr : p % 8 ≠ i % 8 := by omega
    rw [bitGet, bitGet, hb, getD_set_cases]
    split
    · rw [testBit_or_shift_other _ _ _ hr]
    · rfl
  · rw [bitGet, bitGet, getD_set_ne _ (Ne.symm hb)]

theorem bitGet_set_and_self {m : List Nat} {p : Nat} (hp : p / 8 < m.length) :
    bitGet (m.set (p / 8)
        (m.getD (p / 8) 0 &&& (255 ^^^ (1 <<< (p % 8))))) p = false := by
  rw [bitGet, getD_set_self _ hp]
  exact testBit_and_mask_self _ _ (Nat.mod_lt _ (by norm_num))

theorem bitGet_set_and_other (m : List Nat) {p i : Nat} (h : i ≠ p) :
    bitGet (m.set (p / 8)
        (m.getD (p / 8) 0 &&& (255 ^^^ (1 <<< (p % 8))))) i = bitGet m i := by
  by_cases hb : i / 8 = p / 8
  · have hr : p % 8 ≠ i % 8 := by omega
    rw [bitGet, bitGet, hb, getD_set_cases]
    split
    · rw [testBit_and_mask_other _ _ _ (Nat.mod_lt _ (by norm_num)) hr]
    · rfl
  · rw [bitGet, bitGet, getD_set_ne _ (Ne.symm hb)]

theorem flatBytes_append (xs ys : List (Option (List Nat))) :
    flatBytes (xs ++ ys) = flatBytes xs ++ flatBytes ys := by
  induction xs with
  | nil => rfl
  | cons e es ih => simp [flatBytes, ih]

theorem flatBytes_take_succ (xs : List (Option (List Nat))) {m : Nat}
    (hm : m < xs.length) :
    flatBytes (xs.take (m + 1)) =
      flatBytes (xs.take m) ++ elemBytes (xs.getD m none) := by
  rw [List.take_succ, flatBytes_append]
  congr 1
  rw [List.getD_eq_getElem?_getD]
  rcases hx : xs[m]? with _ | e
  · rw [List.getElem?_eq_none_iff] at hx
    omega
  · simp [flatBytes]

theorem flatBytes_getD (xs : List (Option (List Nat))) :
    ∀ {m : Nat}, m < xs.length → ∀ {j : Nat},
      j < (elemBytes (xs.getD m none)).length →
      (flatBytes xs).getD ((flatBytes (xs.take m)).length + j) 0 =
        (elemBytes (xs.getD m none)).getD j 0 := by
  induction xs with
  | nil =>
    intro m hm
    simp at hm
  | cons e es ih =>
    intro m hm j hj
    cases m with
    | zero =>
      simp only [List.take_zero, flatBytes, List.length_nil, Nat.zero_add,
        List.getD_cons_zero] at hj ⊢
      rw [getD_append_lt hj]
    | succ m =>
      simp only [List.take_succ_cons, flatBytes, List.getD_cons_succ,
        List.length_append] at hj ⊢
      rw [Nat.add_assoc, getD_append_add]
      exact ih (by simpa using hm) hj

namespace NumbaStringArrayBuilder

theorem missing_capactiy_mono {c n : Nat} (h : c ≤ n) :
    missing_capactiy c ≤ missing_capactiy n := by
  simp only [missing_capactiy]
  omega

theorem div8_lt_missing_capactiy {i c : Nat} (h : i < c) :
    i / 8 < missing_capactiy c := by
  simp only [missing_capactiy]
  omega

theorem grow12_gt {c : Nat} (h : 1 ≤ c) : c < grow12 c := by
  simp only [grow12]
  omega

theorem BuildInv.grow_data {st : NumbaStringArrayBuilder}
    {elems : List (Option (List Nat))} {pending : List Nat}
    (h : BuildInv st elems pending) {n : Nat} (hn : st.byte_capacity < n) :
    BuildInv { st with
      data := st.data.take st.byte_capacity ++
        List.replicate (n - st.byte_capacity) 0
      byte_capacity := n } elems pending := by
  obtain ⟨sp, bp, scap, bcap, sple, bple, mlen, olen, dlen, hoff, hdata,
    hbits⟩ := h
  refine ⟨sp, bp, scap, by dsimp only; omega, sple, by dsimp only; omega,
    mlen, olen, length_grow dlen (by omega), hoff, ?_, hbits⟩
  intro j hj
  dsimp only at hj ⊢
  rw [getD_grow dlen (by omega)]
  exact hdata j hj

theorem BuildInv.grow_string {st : NumbaStringArrayBuilder}
    {elems : List (Option (List Nat))} {pending : List Nat}
    (h : BuildInv st elems pending) {n : Nat} (hn : st.string_capacity < n) :
    BuildInv { st with
      missing := st.missing.take (missing_capactiy st.string_capacity) ++
        List.replicate
          (missing_capactiy n - missing_capactiy st.string_capacity) 0
      offsets := st.offsets.take (st.string_capacity + 1) ++
        List.replicate ((n + 1) - (st.string_capacity + 1)) 0
      string_capacity := n } elems pending := by
  obtain ⟨sp, bp, scap, bcap, sple, bple, mlen, olen, dlen, hoff, hdata,
    hbits⟩ := h
  refine ⟨sp, bp, by dsimp only; omega, bcap, by dsimp only; omega, bple,
    length_grow mlen (missing_capactiy_mono (by omega)),
    length_grow olen (by omega), dlen, ?_, hdata, ?_⟩
  · intro i hi
    dsimp only at hi ⊢
    rw [getD_grow olen (by omega)]
    exact hoff i hi
  · intro i hi
    dsimp only at hi ⊢
    have hdiv : i / 8 < missing_capactiy st.string_capacity :=
      div8_lt_missing_capactiy (by omega)
    rw [bitGet, getD_grow mlen hdiv, ← bitGet]
    exact hbits i hi

theorem BuildInv.write_byte {st : NumbaStringArrayBuilder}
    {elems : List (Option (List Nat))} {pending : List Nat}
    (h : BuildInv st elems pending)
    (hlt : st.byte_position < st.byte_capacity) (b : Nat) :
    BuildInv { st with
      data := st.data.set st.byte_position (b % 256)
      byte_position := st.byte_position + 1 } elems (pending ++ [b]) := by
  obtain ⟨sp, bp, scap, bcap, sple, bple, mlen, olen, dlen, hoff, hdata,
    hbits⟩ := h
  have hmap : (pending ++ [b]).map (· % 256) =
      pending.map (· % 256) ++ [b % 256] := by simp
  have hlen : (flatBytes elems ++ pending.map (· % 256)).length =
      st.byte_position := by
    simp [bp]
  refine ⟨sp, ?_, scap, bcap, sple, by dsimp only; omega, mlen, olen,
    by simp [dlen], hoff, ?_, hbits⟩
  · dsimp only
    simp only [List.length_append, List.length_cons, List.length_nil]
    omega
  intro j hj
  dsimp only at hj ⊢
  rw [hmap, ← List.append_assoc]
  rcases Nat.lt_or_ge j st.byte_position with hj2 | hj2
  · rw [getD_set_ne _ (by omega), getD_append_lt (by omega), hdata j hj2]
  · have hj3 : j = st.byte_position := by omega
    subst hj3
    rw [getD_set_self _ (by omega), ← hlen, getD_append_length]
    rfl

theorem BuildInv.seal_string {st : NumbaStringArrayBuilder}
    {elems : List (Option (List Nat))} {pending : List Nat}
    (h : BuildInv st elems pending)
    (hlt : st.string_position < st.string_capacity) :
    BuildInv { st with
      offsets := st.offsets.set (st.string_position + 1) st.byte_position
      missing := st.missing.set (st.string_position / 8)
        (st.missing.getD (st.string_position / 8) 0 |||
          (1 <<< (st.string_position % 8)))
      string_position := st.string_position + 1 }
      (elems ++ [some pending]) [] := by
  obtain ⟨sp, bp, scap, bcap, sple, bple, mlen, olen, dlen, hoff, hdata,
    hbits⟩ := h
  have hflat : flatBytes (elems ++ [some pending]) =
      flatBytes elems ++ pending.map (· % 256) := by
    rw [flatBytes_append]
    simp [flatBytes, elemBytes]
  refine ⟨by simp [sp], by dsimp only; simp [hflat]; omega, scap, bcap,
    by dsimp only; omega, bple, by simp [mlen], by simp [olen], dlen,
    ?_, ?_, ?_⟩
  · intro i hi
    simp only [List.length_append, List.length_cons, List.length_nil] at hi
    dsimp only at hi ⊢
    rcases Nat.lt_or_ge i (elems.length + 1) with hi2 | hi2
    · rw [getD_set_ne _ (by omega),
        List.take_append_of_le_length (by omega), hoff i (by omega)]
    · have hi3 : i = st.string_position + 1 := by omega
      subst hi3
      rw [getD_set_self _ (by rw [olen]; omega),
        List.take_of_length_le (by simp; omega), hflat, bp]
      simp
  · intro j hj
    dsimp only at hj ⊢
    rw [hdata j hj, hflat]
    simp
  · intro i hi
    simp only [List.length_append, List.length_cons, List.length_nil] at hi
    dsimp only at hi ⊢
    rcases Nat.lt_or_ge i elems.length with hi2 | hi2
    · rw [bitGet_set_or_other _ (by omega), hbits i hi2,
        getD_append_lt hi2]
    · have hi3 : i = st.string_position := by omega
      subst hi3
      rw [bitGet_set_or_self
          (by rw [mlen]; exact div8_lt_missing_capactiy (by omega)),
        sp, getD_append_length]
      rfl

theorem BuildInv.seal_null {st : NumbaStringArrayBuilder}
    {elems : List (Option (List Nat))} (h : BuildInv st elems [])
    (hlt : st.string_position < st.string_capacity) :
    BuildInv { st with
      offsets := st.offsets.set (st.string_position + 1) st.byte_position
      missing := st.missing.set (st.string_position / 8)
        (st.missing.getD (st.string_position / 8) 0 &&&
          (255 ^^^ (1 <<< (st.string_position % 8))))
      string_position := st.string_position + 1 }
      (elems ++ [none]) [] := by
  obtain ⟨sp, bp, scap, bcap, sple, bple, mlen, olen, dlen, hoff, hdata,
    hbits⟩ := h
  have hflat : flatBytes (elems ++ [none]) = flatBytes elems := by
    rw [flatBytes_append]
    simp [flatBytes, elemBytes]
  simp only [List.length_nil, Nat.add_zero] at bp
  refine ⟨by simp [sp], by dsimp only; simp [hflat, bp], scap, bcap,
    by dsimp only; omega, bple, by simp [mlen], by simp [olen], dlen,
    ?_, ?_, ?_⟩
  · intro i hi
    simp only [List.length_append, List.length_cons, List.length_nil] at hi
    dsimp only at hi ⊢
    rcases Nat.lt_or_ge i (elems.length + 1) with hi2 | hi2
    · rw [getD_set_ne _ (by omega),
        List.take_append_of_le_length (by omega), hoff i (by omega)]
    · have hi3 : i = st.string_position + 1 := by omega
      subst hi3
      rw [getD_set_self _ (by rw [olen]; omega),
        List.take_of_length_le (by simp; omega), hflat, bp]
  · intro j hj
    dsimp only at hj ⊢
    rw [hdata j hj, hflat]
  · intro i hi
    simp only [List.length_append, List.length_cons, List.length_nil] at hi
    dsimp only at hi ⊢
    rcases Nat.lt_or_ge i elems.length with hi2 | hi2
    · rw [bitGet_set_and_other _ (by omega), hbits i hi2,
        getD_append_lt hi2]
    · have hi3 : i = st.string_position := by omega
      subst hi3
      rw [bitGet_set_and_self
          (by rw [mlen]; exact div8_lt_missing_capactiy (by omega)),
        sp, getD_append_length]
      rfl

theorem put_byte_inv {st : NumbaStringArrayBuilder}
    {elems : List (Option (List Nat))} {pending : List Nat}
    (h : BuildInv st elems pending) (b : Nat) :
    ∃ st', st.put_byte b = some st' ∧ BuildInv st' elems (pending ++ [b]) := by
  by_cases hfull : st.byte_capacity ≤ st.byte_position
  · have hn : st.byte_capacity < grow12 st.byte_capacity := grow12_gt h.bcap
    refine ⟨_, ?_, (h.grow_data hn).write_byte ?_ b⟩
    · unfold put_byte increase_byte_capacity
      rw [if_pos hfull, if_pos hn]
    · show st.byte_position < grow12 st.byte_capacity
      have := h.bple
      omega
  · refine ⟨_, ?_, h.write_byte (by omega) b⟩
    unfold put_byte
    rw [if_neg hfull]

theorem finish_string_inv {st : NumbaStringArrayBuilder}
    {elems : List (Option (List Nat))} {pending : List Nat}
    (h : BuildInv st elems pending) :
    ∃ st', st.finish_string = some st' ∧
      BuildInv st' (elems ++ [some pending]) [] := by
  by_cases hfull : st.string_capacity ≤ st.string_position
  · have hn : st.string_capacity < grow12 st.string_capacity :=
      grow12_gt h.scap
    refine ⟨_, ?_, (h.grow_string hn).seal_string ?_⟩
    · unfold finish_string increase_string_capacity
      rw [if_pos hfull, if_pos hn]
    · show st.string_position < grow12 st.string_capacity
      have := h.sple
      omega
  · refine ⟨_, ?_, h.seal_string (by omega)⟩
    unfold finish_string
    rw [if_neg hfull]

theorem finish_null_inv {st : NumbaStringArrayBuilder}
    {elems : List (Option (List Nat))} (h : BuildInv st elems []) :
    ∃ st', st.finish_null = some st' ∧ BuildInv st' (elems ++ [none]) [] := by
  by_cases hfull : st.string_capacity ≤ st.string_position
  · have hn : st.string_capacity < grow12 st.string_capacity :=
      grow12_gt h.scap
    refine ⟨_, ?_, (h.grow_string hn).seal_null ?_⟩
    · unfold finish_null increase_string_capacity
      rw [if_pos hfull, if_pos hn]
    · show st.string_position < grow12 st.string_capacity
      have := h.sple
      omega
  · refine ⟨_, ?_, h.seal_null (by omega)⟩
    unfold finish_null
    rw [if_neg hfull]

theorem putBytes_inv (bytes : List Nat) {st : NumbaStringArrayBuilder}
    {elems : List (Option (List Nat))} {pending : List Nat}
    (h : BuildInv st elems pending) :
    ∃ st', st.putBytes bytes = some st' ∧
      BuildInv st' elems (pending ++ bytes) := by
  induction bytes generalizing st pending with
  | nil => exact ⟨st, rfl, by simpa using h⟩
  | cons b bs ih =>
    obtain ⟨st1, he1, h1⟩ := put_byte_inv h b
    obtain ⟨st2, he2, h2⟩ := ih h1
    refine ⟨st2, ?_, by simpa using h2⟩
    simp only [putBytes, he1]
    exact he2

theorem putElem_inv (e : Option (List Nat)) {st : NumbaStringArrayBuilder}
    {elems : List (Option (List Nat))} (h : BuildInv st elems []) :
    ∃ st', st.putElem e = some st' ∧ BuildInv st' (elems ++ [e]) [] := by
  cases e with
  | some bs =>
    obtain ⟨st1, he1, h1⟩ := putBytes_inv bs h
    rw [List.nil_append] at h1
    obtain ⟨st2, he2, h2⟩ := finish_string_inv h1
    refine ⟨st2, ?_, h2⟩
    simp only [putElem, he1]
    exact he2
  | none =>
    obtain ⟨st1, he1, h1⟩ := finish_null_inv h
    exact ⟨st1, he1, h1⟩

theorem buildAll_inv (xs : List (Option (List Nat)))
    {st : NumbaStringArrayBuilder} {elems : List (Option (List Nat))}
    (h : BuildInv st elems []) :
    ∃ st', st.buildAll xs = some st' ∧ BuildInv st' (elems ++ xs) [] := by
  induction xs generalizing st elems with
  | nil => exact ⟨st, rfl, by simpa using h⟩
  | cons e es ih =>
    obtain ⟨st1, he1, h1⟩ := putElem_inv e h
    obtain ⟨st2, he2, h2⟩ := ih h1
    refine ⟨st2, ?_, by simpa using h2⟩
    simp only [buildAll, he1]
    exact he2

theorem init_inv {sc bc : Nat} (hsc : 1 ≤ sc) (hbc : 1 ≤ bc) :
    BuildInv (init sc bc) [] [] := by
  refine ⟨by simp [init], by simp [init, flatBytes], hsc, hbc,
    by simp [init], by simp [init], by simp [init], by simp [init],
    by simp [init], ?_, ?_, ?_⟩
  · intro i hi
    simp only [List.length_nil, Nat.le_zero] at hi
    subst hi
    simp [init, getD_replicate_zero, flatBytes]
  · intro j hj
    simp [init] at hj
  · intro i hi
    simp at hi

end NumbaStringArrayBuilder

theorem getD_map_mod (bs : List Nat) {j : Nat} (hj : j < bs.length) :
    (bs.map (· % 256)).getD j 0 = bs.getD j 0 % 256 := by
  rw [List.getD_eq_getElem?_getD, List.getElem?_map,
    List.getD_eq_getElem?_getD, List.getElem?_eq_getElem hj]
  rfl

/-- C1: building any sequence of byte strings / nulls through the builder
(`put_byte` per byte, `finish_string` / `finish_null` per element, then
`finish`) succeeds, and the `NumbaStringArray` view over the resulting
buffers reproduces the sequence exactly — sizes, nulls, byte lengths and
bytes — at every logical slice offset `k ≤ length`. -/
theorem claim_C1_round_trip (xs : List (Option (List Nat))) (sc bc : Nat)
    (hsc : 1 ≤ sc) (hbc : 1 ≤ bc)
    (hbytes : ∀ e ∈ xs, ∀ b ∈ e.getD [], b < 256) :
    ∃ st, (NumbaStringArrayBuilder.init sc bc).buildAll xs = some st ∧
      ∀ k, k ≤ xs.length →
        ((st.finish.toView k).size = xs.length - k ∧
        (∀ i, i < xs.length - k →
          ((st.finish.toView k).isnull i = true ↔
            xs.getD (k + i) none = none)) ∧
        (∀ i bs, i < xs.length - k → xs.getD (k + i) none = some bs →
          (st.finish.toView k).byte_length i = bs.length ∧
          ∀ j, j < bs.length →
            (st.finish.toView k).get_byte i j = bs.getD j 0)) := by
  obtain ⟨st, he, hinv⟩ :=
    NumbaStringArrayBuilder.buildAll_inv xs
      (NumbaStringArrayBuilder.init_inv hsc hbc)
  rw [List.nil_append] at hinv
  obtain ⟨sp, bp, scap, bcap, sple, bple, mlen, olen, dlen, hoff, hdata,
    hbits⟩ := hinv
  simp only [List.length_nil, Nat.add_zero] at bp
  refine ⟨st, he, fun k hk => ⟨?_, ?_, ?_⟩⟩
  · show (st.offsets.take (st.string_position + 1)).length - 1 - k =
      xs.length - k
    rw [List.length_take]
    omega
  · intro i hi
    have hik : i + k < xs.length := by omega
    have hbit : ((st.missing.take
        (missing_capactiy st.string_position)).getD ((i + k) / 8) 0).testBit
          ((i + k) % 8) = (xs.getD (i + k) none).isSome := by
      rw [getD_take_lt
        (NumbaStringArrayBuilder.div8_lt_missing_capactiy (by omega))]
      exact hbits (i + k) (by omega)
    show ((st.missing.take (missing_capactiy st.string_position)).getD
        ((i + k) / 8) 0 &&& (1 <<< ((i + k) % 8)) == 0) = true ↔
      xs.getD (k + i) none = none
    rw [Nat.add_comm k i, beq_iff_eq, and_shift_eq_zero_iff, hbit]
    cases hxe : xs.getD (i + k) none <;> simp
  · intro i bs hi hbs
    rw [Nat.add_comm k i] at hbs
    have hik : i + k < xs.length := by omega
    have hjlen : ∀ {j : Nat}, j < bs.length →
        j < (elemBytes (xs.getD (i + k) none)).length := by
      intro j hj
      rw [hbs]
      simpa [elemBytes] using hj
    have hbl : (st.finish.toView k).byte_length i = bs.length := by
      show (st.offsets.take (st.string_position + 1)).getD (i + k + 1) 0 -
          (st.offsets.take (st.string_position + 1)).getD (i + k) 0 =
        bs.length
      rw [getD_take_lt (by omega), getD_take_lt (by omega),
        hoff (i + k + 1) (by omega), hoff (i + k) (by omega),
        flatBytes_take_succ xs hik, List.length_append, hbs]
      simp [elemBytes]
    refine ⟨hbl, fun j hj => ?_⟩
    have hmem : some bs ∈ xs := by
      rw [← hbs, List.getD_eq_getElem?_getD, List.getElem?_eq_getElem hik]
      exact List.getElem_mem hik
    have hb256 : bs.getD j 0 < 256 := by
      apply hbytes (some bs) hmem
      show bs.getD j 0 ∈ bs
      rw [List.getD_eq_getElem?_getD, List.getElem?_eq_getElem hj]
      exact List.getElem_mem hj
    have hsplit : flatBytes xs =
        (flatBytes (xs.take (i + k)) ++ elemBytes (xs.getD (i + k) none)) ++
          flatBytes (xs.drop (i + k + 1)) := by
      rw [← flatBytes_take_succ xs hik, ← flatBytes_append,
        List.take_append_drop]
    have hlenb : (flatBytes (xs.take (i + k))).length + j <
        st.byte_position := by
      have hjj := hjlen hj
      rw [bp, hsplit]
      simp only [List.length_append]
      omega
    have hoffv : (st.offsets.take (st.string_position + 1)).getD (i + k) 0 =
        (flatBytes (xs.take (i + k))).length := by
      rw [getD_take_lt (by omega), hoff (i + k) (by omega)]
    show (st.data.take st.byte_position).getD
        ((st.offsets.take (st.string_position + 1)).getD (i + k) 0 + j) 0 =
      bs.getD j 0
    rw [hoffv, getD_take_lt hlenb, hdata _ hlenb, List.map_nil,
      List.append_nil, flatBytes_getD xs hik (hjlen hj), hbs]
    show (bs.map (· % 256)).getD j 0 = bs.getD j 0
    rw [getD_map_mod bs hj, Nat.mod_eq_of_lt hb256]

namespace NumbaStringArrayBuilder

theorem put_byte_zero {st : NumbaStringArrayBuilder}
    (hc : st.byte_capacity = 0) (b : Nat) : st.put_byte b = none := by
  unfold put_byte increase_byte_capacity
  rw [if_pos (by omega), if_neg (by simp only [grow12, hc]; omega)]

theorem finish_string_zero {st : NumbaStringArrayBuilder}
    (hc : st.string_capacity = 0) : st.finish_string = none := by
  unfold finish_string increase_string_capacity
  rw [if_pos (by omega), if_neg (by simp only [grow12, hc]; omega)]

theorem finish_null_zero {st : NumbaStringArrayBuilder}
    (hc : st.string_capacity = 0) : st.finish_null = none := by
  unfold finish_null increase_string_capacity
  rw [if_pos (by omega), if_neg (by simp only [grow12, hc]; omega)]

theorem increase_byte_eq {st : NumbaStringArrayBuilder} {n : Nat}
    (hn : st.byte_capacity < n) :
    st.increase_byte_capacity n = some { st with
      data := st.data.take st.byte_capacity ++
        List.replicate (n - st.byte_capacity) 0
      byte_capacity := n } := by
  unfold increase_byte_capacity
  rw [if_pos hn]

theorem increase_string_eq {st : NumbaStringArrayBuilder} {n : Nat}
    (hn : st.string_capacity < n) :
    st.increase_string_capacity n = some { st with
      missing := st.missing.take (missing_capactiy st.string_capacity) ++
        List.replicate
          (missing_capactiy n - missing_capactiy st.string_capacity) 0
      offsets := st.offsets.take (st.string_capacity + 1) ++
        List.replicate ((n + 1) - (st.string_capacity + 1)) 0
      string_capacity := n } := by
  unfold increase_string_capacity
  rw [if_pos hn]

theorem put_byte_eq_grow {st G : NumbaStringArrayBuilder} (b : Nat)
    (hfull : st.byte_capacity ≤ st.byte_position)
    (hg : st.increase_byte_capacity (grow12 st.byte_capacity) = some G) :
    st.put_byte b = some { G with
      data := G.data.set G.byte_position (b % 256)
      byte_position := G.byte_position + 1 } := by
  unfold put_byte
  rw [if_pos hfull, hg]

theorem put_byte_eq_nogrow {st : NumbaStringArrayBuilder} (b : Nat)
    (hfull : ¬ st.byte_capacity ≤ st.byte_position) :
    st.put_byte b = some { st with
      data := st.data.set st.byte_position (b % 256)
      byte_position := st.byte_position + 1 } := by
  unfold put_byte
  rw [if_neg hfull]

theorem finish_string_eq_grow {st G : NumbaStringArrayBuilder}
    (hfull : st.string_capacity ≤ st.string_position)
    (hg : st.increase_string_capacity (grow12 st.string_capacity) = some G) :
    st.finish_string = some { G with
      offsets := G.offsets.set (G.string_position + 1) G.byte_position
      missing := G.missing.set (G.string_position / 8)
        (G.missing.getD (G.string_position / 8) 0 |||
          (1 <<< (G.string_position % 8)))
      string_position := G.string_position + 1 } := by
  unfold finish_string
  rw [if_pos hfull, hg]

theorem finish_string_eq_nogrow {st : NumbaStringArrayBuilder}
    (hfull : ¬ st.string_capacity ≤ st.string_position) :
    st.finish_string = some { st with
      offsets := st.offsets.set (st.string_position + 1) st.byte_position
      missing := st.missing.set (st.string_position / 8)
        (st.missing.getD (st.string_position / 8) 0 |||
          (1 <<< (st.string_position % 8)))
      string_position := st.string_position + 1 } := by
  unfold finish_string
  rw [if_neg hfull]

theorem finish_null_eq_grow {st G : NumbaStringArrayBuilder}
    (hfull : st.string_capacity ≤ st.string_position)
    (hg : st.increase_string_capacity (grow12 st.string_capacity) = some G) :
    st.finish_null = some { G with
      offsets := G.offsets.set (G.string_position + 1) G.byte_position
      missing := G.missing.set (G.string_position / 8)
        (G.missing.getD (G.string_position / 8) 0 &&&
          (255 ^^^ (1 <<< (G.string_position % 8))))
      string_position := G.string_position + 1 } := by
  unfold finish_null
  rw [if_pos hfull, hg]

theorem finish_null_eq_nogrow {st : NumbaStringArrayBuilder}
    (hfull : ¬ st.string_capacity ≤ st.string_position) :
    st.finish_null = some { st with
      offsets := st.offsets.set (st.string_position + 1) st.byte_position
      missing := st.missing.set (st.string_position / 8)
        (st.missing.getD (st.string_position / 8) 0 &&&
          (255 ^^^ (1 <<< (st.string_position % 8))))
      string_position := st.string_position + 1 } := by
  unfold finish_null
  rw [if_neg hfull]

/-- What one successful `put_byte` does to every observable component of
the state. -/
theorem put_byte_spec {st : NumbaStringArrayBuilder}
    (hd : st.data.length = st.byte_capacity)
    (hb : st.byte_position ≤ st.byte_capacity)
    (hc : 1 ≤ st.byte_capacity) (b : Nat) :
    ∃ st', st.put_byte b = some st' ∧
      st'.byte_capacity = (if st.byte_capacity ≤ st.byte_position then
        grow12 st.byte_capacity else st.byte_capacity) ∧
      st'.byte_position = st.byte_position + 1 ∧
      st'.missing = st.missing ∧
      st'.offsets = st.offsets ∧
      st'.string_position = st.string_position ∧
      st'.string_capacity = st.string_capacity ∧
      st'.data.length = st'.byte_capacity ∧
      (∀ j, j < st.byte_position → st'.data.getD j 0 = st.data.getD j 0) ∧
      st'.data.getD st.byte_position 0 = b % 256 := by
  by_cases hfull : st.byte_capacity ≤ st.byte_position
  · have hn : st.byte_capacity < grow12 st.byte_capacity := grow12_gt hc
    have hglen : (st.data.take st.byte_capacity ++
        List.replicate (grow12 st.byte_capacity - st.byte_capacity) 0).length
        = grow12 st.byte_capacity := length_grow hd (by omega)
    refine ⟨_, put_byte_eq_grow b hfull (increase_byte_eq hn),
      by dsimp only; rw [if_pos hfull], rfl, rfl, rfl, rfl, rfl,
      ?_, ?_, ?_⟩
    · dsimp only
      rw [List.length_set, hglen]
    · intro j hj
      dsimp only
      rw [getD_set_ne _ (by omega), getD_grow hd (by omega)]
    · dsimp only
      rw [getD_set_self _ (by rw [hglen]; omega)]
  · refine ⟨_, put_byte_eq_nogrow b hfull,
      by dsimp only; rw [if_neg hfull], rfl, rfl, rfl, rfl, rfl,
      ?_, ?_, ?_⟩
    · dsimp only
      rw [List.length_set, hd]
    · intro j hj
      dsimp only
      rw [getD_set_ne _ (by omega)]
    · dsimp only
      rw [getD_set_self _ (by omega)]

/-- What one successful `finish_string` does to every observable component
of the state. -/
theorem finish_string_spec {st : NumbaStringArrayBuilder}
    (hm : st.missing.length = missing_capactiy st.string_capacity)
    (ho : st.offsets.length = st.string_capacity + 1)
    (hs : st.string_position ≤ st.string_capacity)
    (hc : 1 ≤ st.string_capacity) :
    ∃ st', st.finish_string = some st' ∧
      st'.string_capacity = (if st.string_capacity ≤ st.string_position then
        grow12 st.string_capacity else st.string_capacity) ∧
      st'.string_position = st.string_position + 1 ∧
      st'.byte_position = st.byte_position ∧
      st'.byte_capacity = st.byte_capacity ∧
      st'.data = st.data ∧
      st'.missing.length = missing_capactiy st'.string_capacity ∧
      st'.offsets.length = st'.string_capacity + 1 ∧
      (∀ i, i ≤ st.string_position →
        st'.offsets.getD i 0 = st.offsets.getD i 0) ∧
      st'.offsets.getD (st.string_position + 1) 0 = st.byte_position ∧
      (∀ i, i < st.string_position →
        bitGet st'.missing i = bitGet st.missing i) ∧
      bitGet st'.missing st.string_position = true := by
  by_cases hfull : st.string_capacity ≤ st.string_position
  · have hn : st.string_capacity < grow12 st.string_capacity := grow12_gt hc
    have hmlen : (st.missing.take (missing_capactiy st.string_capacity) ++
        List.replicate (missing_capactiy (grow12 st.string_capacity) -
          missing_capactiy st.string_capacity) 0).length
        = missing_capactiy (grow12 st.string_capacity) :=
      length_grow hm (missing_capactiy_mono (by omega))
    have holen : (st.offsets.take (st.string_capacity + 1) ++
        List.replicate ((grow12 st.string_capacity + 1) -
          (st.string_capacity + 1)) 0).length
        = grow12 st.string_capacity + 1 := length_grow ho (by omega)
    refine ⟨_, finish_string_eq_grow hfull (increase_string_eq hn),
      by dsimp only; rw [if_pos hfull], rfl, rfl, rfl, rfl,
      ?_, ?_, ?_, ?_, ?_, ?_⟩
    · dsimp only
      rw [List.length_set, hmlen]
    · dsimp only
      rw [List.length_set, holen]
    · intro i hi
      dsimp only
      rw [getD_set_ne _ (by omega), getD_grow ho (by omega)]
    · dsimp only
      rw [getD_set_self _ (by rw [holen]; omega)]
    · intro i hi
      dsimp only
      rw [bitGet_set_or_other _ (by omega), bitGet, bitGet,
        getD_grow hm (div8_lt_missing_capactiy (by omega))]
    · dsimp only
      have hp : st.string_position / 8 <
          (st.missing.take (missing_capactiy st.string_capacity) ++
            List.replicate (missing_capactiy (grow12 st.string_capacity) -
              missing_capactiy st.string_capacity) 0).length := by
        rw [hmlen]
        exact div8_lt_missing_capactiy (by omega)
      rw [bitGet_set_or_self hp]
  · refine ⟨_, finish_string_eq_nogrow hfull,
      by dsimp only; rw [if_neg hfull], rfl, rfl, rfl, rfl,
      ?_, ?_, ?_, ?_, ?_, ?_⟩
    · dsimp only
      rw [List.length_set, hm]
    · dsimp only
      rw [List.length_set, ho]
    · intro i hi
      dsimp only
      rw [getD_set_ne _ (by omega)]
    · dsimp only
      rw [getD_set_self _ (by omega)]
    · intro i hi
      dsimp only
      rw [bitGet_set_or_other _ (by omega)]
    · dsimp only
      have hp : st.string_position / 8 < st.missing.length := by
        rw [hm]
        exact div8_lt_missing_capactiy (by omega)
      rw [bitGet_set_or_self hp]

/-- What one successful `finish_null` does to every observable component
of the state. -/
theorem finish_null_spec {st : NumbaStringArrayBuilder}
    (hm : st.missing.length = missing_capactiy st.string_capacity)
    (ho : st.offsets.length = st.string_capacity + 1)
    (hs : st.string_position ≤ st.string_capacity)
    (hc : 1 ≤ st.string_capacity) :
    ∃ st', st.finish_null = some st' ∧
      st'.string_capacity = (if st.string_capacity ≤ st.string_position then
        grow12 st.string_capacity else st.string_capacity) ∧
      st'.string_position = st.string_position + 1 ∧
      st'.byte_position = st.byte_position ∧
      st'.byte_capacity = st.byte_capacity ∧
      st'.data = st.data ∧
      st'.missing.length = missing_capactiy st'.string_capacity ∧
      st'.offsets.length = st'.string_capacity + 1 ∧
      (∀ i, i ≤ st.string_position →
        st'.offsets.getD i 0 = st.offsets.getD i 0) ∧
      st'.offsets.getD (st.string_position + 1) 0 = st.byte_position ∧
      (∀ i, i < st.string_position →
        bitGet st'.missing i = bitGet st.missing i) ∧
      bitGet st'.missing st.string_position = false := by
  by_cases hfull : st.string_capacity ≤ st.string_position
  · have hn : st.string_capacity < grow12 st.string_capacity := grow12_gt hc
    have hmlen : (st.missing.take (missing_capactiy st.string_capacity) ++
        List.replicate (missing_capactiy (grow12 st.string_capacity) -
          missing_capactiy st.string_capacity) 0).length
        = missing_capactiy (grow12 st.string_capacity) :=
      length_grow hm (missing_capactiy_mono (by omega))
    have holen : (st.offsets.take (st.string_capacity + 1) ++
        List.replicate ((grow12 st.string_capacity + 1) -
          (st.string_capacity + 1)) 0).length
        = grow12 st.string_capacity + 1 := length_grow ho (by omega)
    refine ⟨_, finish_null_eq_grow hfull (increase_string_eq hn),
      by dsimp only; rw [if_pos hfull], rfl, rfl, rfl, rfl,
      ?_, ?_, ?_, ?_, ?_, ?_⟩
    · dsimp only
      rw [List.length_set, hmlen]
    · dsimp only
      rw [List.length_set, holen]
    · intro i hi
      dsimp only
      rw [getD_set_ne _ (by omega), getD_grow ho (by omega)]
    · dsimp only
      rw [getD_set_self _ (by rw [holen]; omega)]
    · intro i hi
      dsimp only
      rw [bitGet_set_and_other _ (by omega), bitGet, bitGet,
        getD_grow hm (div8_lt_missing_capactiy (by omega))]
    · dsimp only
      have hp : st.string_position / 8 <
          (st.missing.take (missing_capactiy st.string_capacity) ++
            List.replicate (missing_capactiy (grow12 st.string_capacity) -
              missing_capactiy st.string_capacity) 0).length := by
        rw [hmlen]
        exact div8_lt_missing_capactiy (by omega)
      rw [bitGet_set_and_self hp]
  · refine ⟨_, finish_null_eq_nogrow hfull,
      by dsimp only; rw [if_neg hfull], rfl, rfl, rfl, rfl,
      ?_, ?_, ?_, ?_, ?_, ?_⟩
    · dsimp only
      rw [List.length_set, hm]
    · dsimp only
      rw [List.length_set, ho]
    · intro i hi
      dsimp only
      rw [getD_set_ne _ (by omega)]
    · dsimp only
      rw [getD_set_self _ (by omega)]
    · intro i hi
      dsimp only
      rw [bitGet_set_and_other _ (by omega)]
    · dsimp only
      have hp : st.string_position / 8 < st.missing.length := by
        rw [hm]
        exact div8_lt_missing_capactiy (by omega)
      rw [bitGet_set_and_self hp]

end NumbaStringArrayBuilder

/-- C7: the builder capacity invariant — positions within capacities
(grown eagerly before overflow), buffers sized to capacity, and
`offsets[0..string_position]` non-decreasing with every entry at most
`byte_position` — holds after construction and is preserved by every
`put_byte`, `finish_string` and `finish_null` call that returns without an
assertion failure. -/
theorem claim_C7_capacity_invariant :
    (∀ sc bc, NumbaStringArrayBuilder.CapInv
      (NumbaStringArrayBuilder.init sc bc)) ∧
    (∀ st st' : NumbaStringArrayBuilder, ∀ b,
      NumbaStringArrayBuilder.CapInv st → st.put_byte b = some st' →
      NumbaStringArrayBuilder.CapInv st') ∧
    (∀ st st' : NumbaStringArrayBuilder,
      NumbaStringArrayBuilder.CapInv st → st.finish_string = some st' →
      NumbaStringArrayBuilder.CapInv st') ∧
    (∀ st st' : NumbaStringArrayBuilder,
      NumbaStringArrayBuilder.CapInv st → st.finish_null = some st' →
      NumbaStringArrayBuilder.CapInv st') := by
  refine ⟨?_, ?_, ?_, ?_⟩
  · intro sc bc
    refine ⟨by simp [NumbaStringArrayBuilder.init],
      by simp [NumbaStringArrayBuilder.init],
      by simp [NumbaStringArrayBuilder.init],
      by simp [NumbaStringArrayBuilder.init],
      by simp [NumbaStringArrayBuilder.init], ?_, ?_⟩
    · intro j hj i hi
      show (List.replicate (sc + 1) 0).getD i 0 ≤
        (List.replicate (sc + 1) 0).getD j 0
      rw [getD_replicate_zero, getD_replicate_zero]
    · intro i hi
      show (List.replicate (sc + 1) 0).getD i 0 ≤ 0
      rw [getD_replicate_zero]
  · intro st st' b h heq
    obtain ⟨h1, h2, h3, h4, h5, h6, h7⟩ := h
    rcases Nat.eq_zero_or_pos st.byte_capacity with hc0 | hc1
    · rw [NumbaStringArrayBuilder.put_byte_zero hc0 b] at heq
      cases heq
    · obtain ⟨st'', he2, hcap, hbp, _hmq, hoq, hspq, hscq, hdl, _hpres,
        _hset⟩ := NumbaStringArrayBuilder.put_byte_spec h5 h1 hc1 b
      rw [heq] at he2
      injection he2 with he3
      subst he3
      have hg := NumbaStringArrayBuilder.grow12_gt hc1
      refine ⟨?_, ?_, ?_, ?_, hdl, ?_, ?_⟩
      · rw [hbp, hcap]
        split <;> omega
      · rw [hspq, hscq]
        exact h2
      · rw [_hmq, hscq]
        exact h3
      · rw [hoq, hscq]
        exact h4
      · intro j hj i hi
        rw [hoq]
        exact h6 j (by rwa [hspq] at hj) i hi
      · intro i hi
        rw [hoq, hbp]
        have := h7 i (by rwa [hspq] at hi)
        omega
  · intro st st' h heq
    obtain ⟨h1, h2, h3, h4, h5, h6, h7⟩ := h
    rcases Nat.eq_zero_or_pos st.string_capacity with hc0 | hc1
    · rw [NumbaStringArrayBuilder.finish_string_zero hc0] at heq
      cases heq
    · obtain ⟨st'', he2, hcap, hsp2, hbp2, hbc2, hdata2, hm2, ho2, hopres,
        hoset, _hbpres, _hbset⟩ :=
        NumbaStringArrayBuilder.finish_string_spec h3 h4 h2 hc1
      rw [heq] at he2
      injection he2 with he3
      subst he3
      have hg := NumbaStringArrayBuilder.grow12_gt hc1
      refine ⟨?_, ?_, hm2, ho2, ?_, ?_, ?_⟩
      · rw [hbp2, hbc2]
        exact h1
      · rw [hsp2, hcap]
        split <;> omega
      · rw [hdata2, hbc2]
        exact h5
      · intro j hj i hi
        rw [hsp2] at hj
        by_cases hjs : j ≤ st.string_position
        · rw [hopres j hjs, hopres i (by omega)]
          exact h6 j hjs i hi
        · have hj2 : j = st.string_position + 1 := by omega
          subst hj2
          rw [hoset]
          by_cases his : i ≤ st.string_position
          · rw [hopres i his]
            exact h7 i his
          · have hi2 : i = st.string_position + 1 := by omega
            subst hi2
            rw [hoset]
      · intro i hi
        rw [hsp2] at hi
        rw [hbp2]
        by_cases his : i ≤ st.string_position
        · rw [hopres i his]
          exact h7 i his
        · have hi2 : i = st.string_position + 1 := by omega
          subst hi2
          rw [hoset]
  · intro st st' h heq
    obtain ⟨h1, h2, h3, h4, h5, h6, h7⟩ := h
    rcases Nat.eq_zero_or_pos st.string_capacity with hc0 | hc1
    · rw [NumbaStringArrayBuilder.finish_null_zero hc0] at heq
      cases heq
    · obtain ⟨st'', he2, hcap, hsp2, hbp2, hbc2, hdata2, hm2, ho2, hopres,
        hoset, _hbpres, _hbset⟩ :=
        NumbaStringArrayBuilder.finish_null_spec h3 h4 h2 hc1
      rw [heq] at he2
      injection he2 with he3
      subst he3
      have hg := NumbaStringArrayBuilder.grow12_gt hc1
      refine ⟨?_, ?_, hm2, ho2, ?_, ?_, ?_⟩
      · rw [hbp2, hbc2]
        exact h1
      · rw [hsp2, hcap]
        split <;> omega
      · rw [hdata2, hbc2]
        exact h5
      · intro j hj i hi
        rw [hsp2] at hj
        by_cases hjs : j ≤ st.string_position
        · rw [hopres j hjs, hopres i (by omega)]
          exact h6 j hjs i hi
        · have hj2 : j = st.string_position + 1 := by omega
          subst hj2
          rw [hoset]
          by_cases his : i ≤ st.string_position
          · rw [hopres i his]
            exact h7 i his
          · have hi2 : i = st.string_position + 1 := by omega
            subst hi2
            rw [hoset]
      · intro i hi
        rw [hsp2] at hi
        rw [hbp2]
        by_cases his : i ≤ st.string_position
        · rw [hopres i his]
          exact h7 i his
        · have hi2 : i = st.string_position + 1 := by omega
          subst hi2
          rw [hoset]

theorem claim_C7_witness :
    NumbaStringArrayBuilder.CapInv (NumbaStringArrayBuilder.init 1 1) ∧
    NumbaStringArrayBuilder.CapInv
      (NumbaStringArrayBuilder.mk [1] [0, 0] [5] 0 1 1 1) :=
  ⟨claim_C7_capacity_invariant.1 1 1,
    claim_C7_capacity_invariant.2.1 (NumbaStringArrayBuilder.init 1 1)
      (NumbaStringArrayBuilder.mk [1] [0, 0] [5] 0 1 1 1) 5
      (claim_C7_capacity_invariant.1 1 1) (by decide)⟩

/-- C8: `put_byte` grows `data` to `ceil(1.2 * byte_capacity)` (the least
`m` with `6c ≤ 5m`) exactly when `byte_position ≥ byte_capacity` before
the write, and growth copies all previously written bytes unchanged;
`finish_string` and `finish_null` grow `offsets`/`missing` the same way,
preserving all previously written offsets and validity bits. -/
theorem claim_C8_growth_copies :
    (∀ c, 6 * c ≤ 5 * grow12 c ∧ ∀ m, 6 * c ≤ 5 * m → grow12 c ≤ m) ∧
    (∀ st st' : NumbaStringArrayBuilder, ∀ b,
      NumbaStringArrayBuilder.CapInv st → st.put_byte b = some st' →
      st'.byte_capacity =
        (if st.byte_capacity ≤ st.byte_position then
          grow12 st.byte_capacity else st.byte_capacity) ∧
      (∀ j, j < st.byte_position →
        st'.data.getD j 0 = st.data.getD j 0)) ∧
    (∀ st st' : NumbaStringArrayBuilder,
      NumbaStringArrayBuilder.CapInv st → st.finish_string = some st' →
      st'.string_capacity =
        (if st.string_capacity ≤ st.string_position then
          grow12 st.string_capacity else st.string_capacity) ∧
      (∀ i, i ≤ st.string_position →
        st'.offsets.getD i 0 = st.offsets.getD i 0) ∧
      (∀ i, i < st.string_position →
        bitGet st'.missing i = bitGet st.missing i)) ∧
    (∀ st st' : NumbaStringArrayBuilder,
      NumbaStringArrayBuilder.CapInv st → st.finish_null = some st' →
      st'.string_capacity =
        (if st.string_capacity ≤ st.string_position then
          grow12 st.string_capacity else st.string_capacity) ∧
      (∀ i, i ≤ st.string_position →
        st'.offsets.getD i 0 = st.offsets.getD i 0) ∧
      (∀ i, i < st.string_position →
        bitGet st'.missing i = bitGet st.missing i)) := by
  refine ⟨?_, ?_, ?_, ?_⟩
  · intro c
    constructor
    · simp only [grow12]
      omega
    · intro m hm
      simp only [grow12]
      omega
  · intro st st' b h heq
    obtain ⟨h1, _h2, _h3, _h4, h5, _h6, _h7⟩ := h
    rcases Nat.eq_zero_or_pos st.byte_capacity with hc0 | hc1
    · rw [NumbaStringArrayBuilder.put_byte_zero hc0 b] at heq
      cases heq
    · obtain ⟨st'', he2, hcap, _hbp, _hmq, _hoq, _hspq, _hscq, _hdl, hpres,
        _hset⟩ := NumbaStringArrayBuilder.put_byte_spec h5 h1 hc1 b
      rw [heq] at he2
      injection he2 with he3
      subst he3
      exact ⟨hcap, hpres⟩
  · intro st st' h heq
    obtain ⟨_h1, h2, h3, h4, _h5, _h6, _h7⟩ := h
    rcases Nat.eq_zero_or_pos st.string_capacity with hc0 | hc1
    · rw [NumbaStringArrayBuilder.finish_string_zero hc0] at heq
      cases heq
    · obtain ⟨st'', he2, hcap, _hsp2, _hbp2, _hbc2, _hdata2, _hm2, _ho2,
        hopres, _hoset, hbpres, _hbset⟩ :=
        NumbaStringArrayBuilder.finish_string_spec h3 h4 h2 hc1
      rw [heq] at he2
      injection he2 with he3
      subst he3
      exact ⟨hcap, hopres, hbpres⟩
  · intro st st' h heq
    obtain ⟨_h1, h2, h3, h4, _h5, _h6, _h7⟩ := h
    rcases Nat.eq_zero_or_pos st.string_capacity with hc0 | hc1
    · rw [NumbaStringArrayBuilder.finish_null_zero hc0] at heq
      cases heq
    · obtain ⟨st'', he2, hcap, _hsp2, _hbp2, _hbc2, _hdata2, _hm2, _ho2,
        hopres, _hoset, hbpres, _hbset⟩ :=
        NumbaStringArrayBuilder.finish_null_spec h3 h4 h2 hc1
      rw [heq] at he2
      injection he2 with he3
      subst he3
      exact ⟨hcap, hopres, hbpres⟩

theorem claim_C8_witness :
    6 * 5 ≤ 5 * grow12 5 ∧
    ((NumbaStringArrayBuilder.mk [1] [0, 0] [5] 0 1 1 1).byte_capacity =
      (if (NumbaStringArrayBuilder.init 1 1).byte_capacity ≤
          (NumbaStringArrayBuilder.init 1 1).byte_position then
        grow12 (NumbaStringArrayBuilder.init 1 1).byte_capacity
      else (NumbaStringArrayBuilder.init 1 1).byte_capacity) ∧
    (∀ j, j < (NumbaStringArrayBuilder.init 1 1).byte_position →
      (NumbaStringArrayBuilder.mk [1] [0, 0] [5] 0 1 1 1).data.getD j 0 =
        (NumbaStringArrayBuilder.init 1 1).data.getD j 0)) :=
  ⟨(claim_C8_growth_copies.1 5).1,
    claim_C8_growth_copies.2.1 (NumbaStringArrayBuilder.init 1 1)
      (NumbaStringArrayBuilder.mk [1] [0, 0] [5] 0 1 1 1) 5
      ⟨by decide, by decide, by decide, by decide, by decide, by decide,
        by decide⟩
      (by decide)⟩

theorem claim_C1_witness :
    ∃ st, (NumbaStringArrayBuilder.init 1 1).buildAll
        [some [104, 105], none, some []] = some st ∧
      ∀ k, k ≤ 3 →
        ((st.finish.toView k).size = 3 - k ∧
        (∀ i, i < 3 - k →
          ((st.finish.toView k).isnull i = true ↔
            ([some [104, 105], none, some []] :
              List (Option (List Nat))).getD (k + i) none = none)) ∧
        (∀ i bs, i < 3 - k →
          ([some [104, 105], none, some []] :
            List (Option (List Nat))).getD (k + i) none = some bs →
          (st.finish.toView k).byte_length i = bs.length ∧
          ∀ j, j < bs.length →
            (st.finish.toView k).get_byte i j = bs.getD j 0)) :=
  claim_C1_round_trip [some [104, 105], none, some []] 1 1 (by norm_num)
    (by norm_num) (by decide)

theorem claim_C5_witness :
    (∀ j, j < (NumbaStringArray.mk [1] [0, 2] [104, 105] 0).byte_length 0 →
      (NumbaStringArray.mk [1] [0, 2] [104, 105] 0).get_byte 0 j ≤ 127) ∧
    ((NumbaStringArray.mk [1] [0, 2] [104, 105] 0).length 0 =
      some ((NumbaStringArray.mk [1] [0, 2] [104, 105] 0).byte_length 0) ∧
    (NumbaStringArray.mk [1] [0, 2] [104, 105] 0).decode 0 =
      some ((List.range
          ((NumbaStringArray.mk [1] [0, 2] [104, 105] 0).byte_length 0)).map
        ((NumbaStringArray.mk [1] [0, 2] [104, 105] 0).get_byte 0))) :=
  ⟨by decide,
    (claim_C5_ascii_decode (NumbaStringArray.mk [1] [0, 2] [104, 105] 0)
      0).2.2 (by decide)⟩

end Fletcher
